import Mathlib

/-!
Shallow embedding of the Namster backend's record parser
(src/server.js, src/utils/docxParser.js).

Strings are modelled as lists of characters.  The JavaScript string
operations used by the parser — split on a single character or on the
character class [:\t], split on the line endings \n and \r\n, trim,
toLowerCase, replace(/\s+/g, '') — are translated below; the parser
functions keep the source's names.
-/

namespace Namster

/-- A JavaScript string, modelled as a list of characters. -/
abbrev Str := List Char

/-- The ASCII whitespace characters matched by the regexp class \s and
removed by String.prototype.trim. -/
def isWS (c : Char) : Bool :=
  c == ' ' || c == '\t' || c == '\n' || c == '\r' || c == '\x0b' || c == '\x0c'

/-- Remove leading whitespace. -/
def trimLeft (s : Str) : Str := s.dropWhile isWS

/-- Remove trailing whitespace. -/
def trimRight (s : Str) : Str := (trimLeft s.reverse).reverse

/-- JavaScript String.prototype.trim: remove leading and trailing whitespace. -/
def trim (s : Str) : Str := trimLeft (trimRight s)

/-- JavaScript split with a single-character separator, generalised to a
character predicate so that split('=') and split(/[:\t]/) share one
definition.  Always returns at least one (possibly empty) segment. -/
def splitBy (p : Char → Bool) : Str → List Str
  | [] => [[]]
  | c :: cs =>
    if p c then [] :: splitBy p cs
    else
      match splitBy p cs with
      | [] => [[c]]
      | h :: t => (c :: h) :: t

/-- JavaScript Array.prototype.join with a single-character separator. -/
def joinWith (sep : Char) : List Str → Str
  | [] => []
  | [s] => s
  | s :: rest => s ++ sep :: joinWith sep rest

/-- JavaScript text.split(new RegExp with pattern backslash-r? backslash-n):
break the text at each bare newline or CRLF pair; a carriage return not
followed by a newline does not break the line. -/
def splitLines : Str → List Str
  | [] => [[]]
  | '\r' :: '\n' :: cs => [] :: splitLines cs
  | '\n' :: cs => [] :: splitLines cs
  | c :: cs =>
    match splitLines cs with
    | [] => [[c]]
    | h :: t => (c :: h) :: t

/-- One parsed invitee entry: a display name and a table label. -/
structure Record where
  name : Str
  table : Str
deriving DecidableEq, Repr

/-- The predicate for split('='). -/
def isEq (c : Char) : Bool := c == '='

/-- The predicate for split(/[:\t]/). -/
def isColonTab (c : Char) : Bool := c == ':' || c == '\t'

/-- The predicate for split(':'). -/
def isColon (c : Char) : Bool := c == ':'

/-- The per-line mapping of parseNamesFromText (src/server.js lines 94-111):
split on '='; with at least two parts, the name is the first part trimmed
and the table is the remaining parts rejoined with '=' and trimmed;
otherwise split on ':' or tab and, with at least two parts, take the first
two trimmed; otherwise the whole trimmed line is the name. -/
def parseLine (line : Str) : Record :=
  match splitBy isEq line with
  | p0 :: p1 :: ps => ⟨trim p0, trim (joinWith '=' (p1 :: ps))⟩
  | _ =>
    match splitBy isColonTab line with
    | a0 :: a1 :: _ => ⟨trim a0, trim a1⟩
    | _ => ⟨trim line, []⟩

/-- item.name.toLowerCase().replace(whitespace-class regexp, ''):
the normalisation applied by the output filter. -/
def normName (s : Str) : Str := (s.map Char.toLower).filter (fun c => !isWS c)

/-- The header token discarded by the filter. -/
def listeToken : Str := "liste".toList

/-- The output filter of parseNamesFromText (src/server.js lines 112-115):
keep a record unless its normalised name is "liste" or empty. -/
def keepRecord (r : Record) : Bool :=
  !(normName r.name == listeToken) && !(normName r.name == ([] : Str))

/-- The line-list stage of parseNamesFromText: drop blank lines, parse each
remaining line, then apply the output filter. -/
def processLines (ls : List Str) : List Record :=
  ((ls.filter (fun l => !(trim l).isEmpty)).map parseLine).filter keepRecord

/-- parseNamesFromText (src/server.js lines 92-116): split into lines, drop
blank lines, parse each line, filter out "liste" and empty names. -/
def parseNamesFromText (text : Str) : List Record :=
  processLines (splitLines text)

/-- The unfiltered record sequence of parseNamesFromText: blank lines
dropped and each remaining line parsed, before the output filter runs. -/
def rawRecords (text : Str) : List Record :=
  ((splitLines text).filter (fun l => !(trim l).isEmpty)).map parseLine

/-- The per-line mapping of parseDocxNames (src/utils/docxParser.js lines
17-28): only the '=' rule, then the whole-line fallback; no ':' or tab
handling. -/
def parseDocxLine (line : Str) : Record :=
  match splitBy isEq line with
  | p0 :: p1 :: ps => ⟨trim p0, trim (joinWith '=' (p1 :: ps))⟩
  | _ => ⟨trim line, []⟩

/-- parseDocxNames on already-extracted text (src/utils/docxParser.js lines
15-32): same line handling and output filter as parseNamesFromText but with
the '='-only per-line rule. -/
def parseDocxNames (text : Str) : List Record :=
  (((splitLines text).filter (fun l => !(trim l).isEmpty)).map parseDocxLine).filter
    keepRecord

/-- Spreadsheet cell access: String(row[i] || '') — an absent cell reads as
the empty string. -/
def cellAt (row : List Str) (i : Nat) : Str := (row.get? i).getD []

/-- The per-row mapping of the xlsx/xls branch of extractNamesFromFile
(src/server.js lines 130-145): take the first two cells trimmed; when the
second is empty and the first contains '=', re-split the first on '=' and
take parts[0] and parts[1]; else when the second is empty and the first
contains ':', re-split on ':' the same way. -/
def parseRow (row : List Str) : Record :=
  let name := trim (cellAt row 0)
  let table := trim (cellAt row 1)
  if table.isEmpty && name.contains '=' then
    let parts := splitBy isEq name
    ⟨trim (parts.getD 0 []), trim (parts.getD 1 [])⟩
  else if table.isEmpty && name.contains ':' then
    let parts := splitBy isColon name
    ⟨trim (parts.getD 0 []), trim (parts.getD 1 [])⟩
  else ⟨name, table⟩

/-- The tabular core of the xlsx/xls branch of extractNamesFromFile
(src/server.js lines 126-147): map parseRow over the rows, then keep only
rows with a non-empty name. -/
def extractNamesTabular (rows : List (List Str)) : List Record :=
  (rows.map parseRow).filter (fun r => !r.name.isEmpty)

/-- The segment of s strictly before the first character satisfying p. -/
def beforeFirst (p : Char → Bool) (s : Str) : Str :=
  s.takeWhile (fun c => !p c)

/-- The segment of s strictly after the first character satisfying p
(empty when no character satisfies p). -/
def afterFirst (p : Char → Bool) (s : Str) : Str :=
  (s.dropWhile (fun c => !p c)).tail

/-! Basic facts about splitBy, joinWith, trim and splitLines. -/

theorem splitBy_ne_nil (p : Char → Bool) : ∀ s : Str, splitBy p s ≠ []
  | [] => by simp [splitBy]
  | c :: cs => by
    simp only [splitBy]
    split
    · simp
    · split
      · simp
      · simp

theorem splitBy_exists_cons (p : Char → Bool) (s : Str) :
    ∃ h t, splitBy p s = h :: t := by
  cases hq : splitBy p s with
  | nil => exact absurd hq (splitBy_ne_nil p s)
  | cons h t => exact ⟨h, t, rfl⟩

theorem splitBy_of_forall (p : Char → Bool) :
    ∀ s : Str, (∀ c ∈ s, p c = false) → splitBy p s = [s]
  | [] => fun _ => rfl
  | c :: cs => fun h => by
    have hc : p c = false := h c (List.mem_cons_self c cs)
    have ih := splitBy_of_forall p cs (fun d hd => h d (List.mem_cons_of_mem c hd))
    simp [splitBy, hc, ih]

theorem splitBy_of_exists (p : Char → Bool) :
    ∀ s : Str, (∃ c ∈ s, p c = true) →
      splitBy p s = beforeFirst p s :: splitBy p (afterFirst p s)
  | [] => by simp
  | c :: cs => by
    intro h
    by_cases hc : p c = true
    · simp [splitBy, hc, beforeFirst, afterFirst, List.takeWhile_cons,
        List.dropWhile_cons]
    · have hc' : p c = false := Bool.eq_false_iff.mpr hc
      obtain ⟨d, hd, hpd⟩ := h
      have hd' : d ∈ cs := by
        rcases List.mem_cons.mp hd with h1 | h1
        · subst h1; exact absurd hpd hc
        · exact h1
      have ih := splitBy_of_exists p cs ⟨d, hd', hpd⟩
      obtain ⟨h0, t0, hst⟩ := splitBy_exists_cons p (afterFirst p cs)
      simp [splitBy, hc', ih, hst, beforeFirst, afterFirst, List.takeWhile_cons,
        List.dropWhile_cons]

theorem splitBy_head? (p : Char → Bool) (s : Str) :
    (splitBy p s).head? = some (beforeFirst p s) := by
  by_cases h : ∃ c ∈ s, p c = true
  · rw [splitBy_of_exists p s h]; rfl
  · push_neg at h
    have h' : ∀ c ∈ s, p c = false := fun c hc => Bool.eq_false_iff.mpr (h c hc)
    rw [splitBy_of_forall p s h']
    have : beforeFirst p s = s := by
      simp only [beforeFirst]
      exact List.takeWhile_eq_self_iff.mpr (fun c hc => by simp [h' c hc])
    rw [this]; rfl

theorem mem_of_mem_splitBy (p : Char → Bool) :
    ∀ s : Str, ∀ t ∈ splitBy p s, ∀ c ∈ t, c ∈ s
  | [], t, ht, c, hc => by
    simp [splitBy] at ht; subst ht; simp at hc
  | c0 :: cs, t, ht, c, hc => by
    by_cases h0 : p c0 = true
    · simp only [splitBy, h0, if_pos] at ht
      rcases List.mem_cons.mp ht with h1 | h1
      · subst h1; simp at hc
      · exact List.mem_cons_of_mem c0 (mem_of_mem_splitBy p cs t h1 c hc)
    · have h0' : p c0 = false := Bool.eq_false_iff.mpr h0
      obtain ⟨h1, t1, hst⟩ := splitBy_exists_cons p cs
      simp only [splitBy, h0', Bool.false_eq_true, if_neg, hst] at ht
      rcases List.mem_cons.mp ht with h2 | h2
      · subst h2
        rcases List.mem_cons.mp hc with h3 | h3
        · subst h3; exact List.mem_cons_self c cs
        · refine List.mem_cons_of_mem c0
            (mem_of_mem_splitBy p cs h1 ?_ c h3)
          rw [hst]; exact List.mem_cons_self h1 t1
      · refine List.mem_cons_of_mem c0 (mem_of_mem_splitBy p cs t ?_ c hc)
        rw [hst]; exact List.mem_cons_of_mem h1 h2

theorem joinWith_cons_cons (sep c : Char) (h : Str) (t : List Str) :
    joinWith sep ((c :: h) :: t) = c :: joinWith sep (h :: t) := by
  cases t <;> simp [joinWith]

theorem joinWith_splitBy (sep : Char) :
    ∀ s : Str, joinWith sep (splitBy (fun c => c == sep) s) = s
  | [] => rfl
  | c :: cs => by
    have ih := joinWith_splitBy sep cs
    obtain ⟨h0, t0, hst⟩ := splitBy_exists_cons (fun c => c == sep) cs
    have hjoin : joinWith sep (h0 :: t0) = cs := by rw [← hst]; exact ih
    by_cases hc : c = sep
    · subst hc
      simp only [splitBy, beq_self_eq_true, if_pos, hst]
      simp [joinWith, hjoin]
    · have hc' : (c == sep) = false := by simp [hc]
      simp only [splitBy, hc', Bool.false_eq_true, if_false, hst]
      rw [joinWith_cons_cons, hjoin]

theorem trimLeft_idem (s : Str) : trimLeft (trimLeft s) = trimLeft s := by
  simp only [trimLeft]
  induction s with
  | nil => rfl
  | cons c cs ih =>
    by_cases hc : isWS c = true
    · simp [List.dropWhile_cons, hc, ih]
    · have hc' : isWS c = false := Bool.eq_false_iff.mpr hc
      simp [List.dropWhile_cons, hc']

theorem trimRight_idem (s : Str) : trimRight (trimRight s) = trimRight s := by
  simp only [trimRight, List.reverse_reverse]
  rw [trimLeft_idem]

theorem trimRight_cons (c : Char) (s : Str) :
    trimRight (c :: s) =
      if trimRight s = [] then (if isWS c then [] else [c]) else c :: trimRight s := by
  simp only [trimRight, trimLeft, List.reverse_cons]
  rw [List.dropWhile_append]
  by_cases h : (List.dropWhile isWS s.reverse).isEmpty
  · have h' : (List.dropWhile isWS s.reverse).reverse = [] := by
      rw [List.isEmpty_iff] at h
      simp [h]
    rw [if_pos h, if_pos h']
    by_cases hc : isWS c = true
    · simp [List.dropWhile_cons, hc]
    · have hc' : isWS c = false := Bool.eq_false_iff.mpr hc
      simp [List.dropWhile_cons, hc']
  · have h' : ¬ (List.dropWhile isWS s.reverse).reverse = [] := by
      rw [List.isEmpty_iff] at h
      simp [h]
    rw [if_neg h, if_neg h']
    simp

theorem trimLeft_trimRight_comm (s : Str) :
    trimLeft (trimRight s) = trimRight (trimLeft s) := by
  induction s with
  | nil => rfl
  | cons c cs ih =>
    by_cases hc : isWS c = true
    · have hleft : trimLeft (c :: cs) = trimLeft cs := by
        simp [trimLeft, List.dropWhile_cons, hc]
      rw [hleft, trimRight_cons]
      by_cases h0 : trimRight cs = []
      · rw [if_pos h0, if_pos hc, ← ih, h0]
      · rw [if_neg h0]
        have : trimLeft (c :: trimRight cs) = trimLeft (trimRight cs) := by
          simp [trimLeft, List.dropWhile_cons, hc]
        rw [this, ih]
    · have hc' : isWS c = false := Bool.eq_false_iff.mpr hc
      have hleft : trimLeft (c :: cs) = c :: cs := by
        simp [trimLeft, List.dropWhile_cons, hc']
      rw [hleft, trimRight_cons]
      by_cases h0 : trimRight cs = []
      · rw [if_pos h0, if_neg hc]
        simp [trimLeft, List.dropWhile_cons, hc']
      · rw [if_neg h0]
        simp [trimLeft, List.dropWhile_cons, hc']

theorem trim_idem (s : Str) : trim (trim s) = trim s := by
  simp only [trim]
  rw [← trimLeft_trimRight_comm (trimRight s), trimLeft_idem, trimRight_idem]

theorem trim_ws_cons {a : Char} (ha : isWS a = true) (s : Str) :
    trim (a :: s) = trim s := by
  simp only [trim]
  rw [trimRight_cons]
  by_cases h0 : trimRight s = []
  · rw [if_pos h0, if_pos ha, h0]
  · rw [if_neg h0]
    simp [trimLeft, List.dropWhile_cons, ha]

theorem trim_ws_append {a : Char} (ha : isWS a = true) (s : Str) :
    trim (s ++ [a]) = trim s := by
  have : trimRight (s ++ [a]) = trimRight s := by
    simp only [trimRight, List.reverse_append, List.reverse_cons, List.reverse_nil,
      List.nil_append, List.singleton_append, trimLeft, List.dropWhile_cons, ha]
    simp
  simp only [trim, this]

theorem mem_of_mem_trim {c : Char} {s : Str} (h : c ∈ trim s) : c ∈ s := by
  simp only [trim, trimLeft, trimRight] at h
  have h1 : c ∈ (List.dropWhile isWS s.reverse).reverse :=
    (List.dropWhile_sublist isWS).subset h
  rw [List.mem_reverse] at h1
  have h2 : c ∈ s.reverse := (List.dropWhile_sublist isWS).subset h1
  rwa [List.mem_reverse] at h2

theorem mem_dropWhile_of_not {p : Char → Bool} {c : Char} (hc : p c = false) :
    ∀ l : Str, c ∈ l → c ∈ l.dropWhile p
  | a :: t, h => by
    by_cases ha : p a = true
    · rw [List.dropWhile_cons_of_pos ha]
      rcases List.mem_cons.mp h with h1 | h1
      · subst h1; rw [hc] at ha; exact absurd ha (by simp)
      · exact mem_dropWhile_of_not hc t h1
    · rw [List.dropWhile_cons_of_neg ha]
      exact h

theorem mem_trim_of_not_ws {c : Char} {s : Str} (hc : isWS c = false) (h : c ∈ s) :
    c ∈ trim s := by
  simp only [trim, trimLeft, trimRight]
  refine mem_dropWhile_of_not hc _ ?_
  rw [List.mem_reverse]
  refine mem_dropWhile_of_not hc _ ?_
  rwa [List.mem_reverse]

theorem splitLines_ne_nil (s : Str) : splitLines s ≠ [] := by
  rw [splitLines.eq_def]
  split
  · simp
  · simp
  · simp
  · split
    · simp
    · simp

theorem splitLines_exists_cons (s : Str) : ∃ h t, splitLines s = h :: t := by
  cases hq : splitLines s with
  | nil => exact absurd hq (splitLines_ne_nil s)
  | cons h t => exact ⟨h, t, rfl⟩

theorem splitLines_no_newline : ∀ s : Str, ('\n' : Char) ∉ s → splitLines s = [s] := by
  intro s
  induction s using splitLines.induct with
  | case1 => intro _; rfl
  | case2 cs ih => intro h; simp at h
  | case3 cs ih => intro h; simp at h
  | case4 c cs hc1 hc2 hnil ih => exact absurd hnil (splitLines_ne_nil cs)
  | case5 c cs hc1 hc2 h0 t0 hst ih =>
    intro h
    have h' : ('\n' : Char) ∉ cs := fun hm => h (List.mem_cons_of_mem c hm)
    have ihcs : splitLines cs = [cs] := ih h'
    rw [splitLines.eq_4 c cs hc1 hc2, ihcs]

theorem not_newline_of_mem_splitLines :
    ∀ s : Str, ∀ l ∈ splitLines s, ('\n' : Char) ∉ l := by
  intro s
  induction s using splitLines.induct with
  | case1 =>
    intro l hl
    simp only [splitLines, List.mem_singleton] at hl
    subst hl; simp
  | case2 cs ih =>
    intro l hl
    rw [splitLines.eq_2] at hl
    rcases List.mem_cons.mp hl with h1 | h1
    · subst h1; simp
    · exact ih l h1
  | case3 cs ih =>
    intro l hl
    rw [splitLines.eq_3] at hl
    rcases List.mem_cons.mp hl with h1 | h1
    · subst h1; simp
    · exact ih l h1
  | case4 c cs hc1 hc2 hnil ih => exact absurd hnil (splitLines_ne_nil cs)
  | case5 c cs hc1 hc2 h0 t0 hst ih =>
    intro l hl
    rw [splitLines.eq_4 c cs hc1 hc2, hst] at hl
    rcases List.mem_cons.mp hl with h1 | h1
    · subst h1
      intro hmem
      rcases List.mem_cons.mp hmem with h2 | h2
      · exact hc2 h2.symm
      · exact ih h0 (hst ▸ List.mem_cons_self h0 t0) h2
    · exact ih l (hst ▸ List.mem_cons_of_mem h0 h1)

/-! Case analysis of the per-line parsers. -/

theorem parseLine_of_mem_eq {line : Str} (h : ('=' : Char) ∈ line) :
    parseLine line =
      ⟨trim (beforeFirst isEq line), trim (afterFirst isEq line)⟩ := by
  have hex : ∃ c ∈ line, isEq c = true := ⟨'=', h, by simp [isEq]⟩
  have hsplit := splitBy_of_exists isEq line hex
  obtain ⟨h0, t0, hst⟩ := splitBy_exists_cons isEq (afterFirst isEq line)
  have hjoin : joinWith '=' (h0 :: t0) = afterFirst isEq line := by
    rw [← hst]
    exact joinWith_splitBy '=' (afterFirst isEq line)
  simp only [parseLine]
  rw [hsplit, hst]
  show Record.mk (trim (beforeFirst isEq line)) (trim (joinWith '=' (h0 :: t0))) = _
  rw [hjoin]

theorem parseDocxLine_of_mem_eq {line : Str} (h : ('=' : Char) ∈ line) :
    parseDocxLine line =
      ⟨trim (beforeFirst isEq line), trim (afterFirst isEq line)⟩ := by
  have hex : ∃ c ∈ line, isEq c = true := ⟨'=', h, by simp [isEq]⟩
  have hsplit := splitBy_of_exists isEq line hex
  obtain ⟨h0, t0, hst⟩ := splitBy_exists_cons isEq (afterFirst isEq line)
  have hjoin : joinWith '=' (h0 :: t0) = afterFirst isEq line := by
    rw [← hst]
    exact joinWith_splitBy '=' (afterFirst isEq line)
  simp only [parseDocxLine]
  rw [hsplit, hst]
  show Record.mk (trim (beforeFirst isEq line)) (trim (joinWith '=' (h0 :: t0))) = _
  rw [hjoin]

theorem not_mem_eq_forall {line : Str} (hne : ('=' : Char) ∉ line) :
    ∀ c ∈ line, isEq c = false := by
  intro c hc
  simp only [isEq, beq_eq_false_iff_ne, ne_eq]
  intro hcc
  exact hne (hcc ▸ hc)

theorem parseLine_of_colonTab {line : Str} (hne : ('=' : Char) ∉ line)
    (hct : ∃ c ∈ line, isColonTab c = true) :
    parseLine line =
      ⟨trim (beforeFirst isColonTab line),
        trim (beforeFirst isColonTab (afterFirst isColonTab line))⟩ := by
  have h1 : splitBy isEq line = [line] :=
    splitBy_of_forall isEq line (not_mem_eq_forall hne)
  have h2 := splitBy_of_exists isColonTab line hct
  obtain ⟨h0, t0, hst⟩ := splitBy_exists_cons isColonTab (afterFirst isColonTab line)
  have hhead : h0 = beforeFirst isColonTab (afterFirst isColonTab line) := by
    have hq := splitBy_head? isColonTab (afterFirst isColonTab line)
    rw [hst] at hq
    simpa using hq
  simp only [parseLine]
  rw [h1, h2, hst]
  show Record.mk (trim (beforeFirst isColonTab line)) (trim h0) = _
  rw [hhead]

theorem parseLine_fallback {line : Str}
    (h : ∀ c ∈ line, isEq c = false ∧ isColonTab c = false) :
    parseLine line = ⟨trim line, []⟩ := by
  have h1 : splitBy isEq line = [line] :=
    splitBy_of_forall isEq line (fun c hc => (h c hc).1)
  have h2 : splitBy isColonTab line = [line] :=
    splitBy_of_forall isColonTab line (fun c hc => (h c hc).2)
  simp only [parseLine]
  rw [h1, h2]

theorem parseDocxLine_of_not_mem_eq {line : Str} (hne : ('=' : Char) ∉ line) :
    parseDocxLine line = ⟨trim line, []⟩ := by
  have h1 : splitBy isEq line = [line] :=
    splitBy_of_forall isEq line (not_mem_eq_forall hne)
  simp only [parseDocxLine]
  rw [h1]

theorem parseLine_exists_trim (line : Str) :
    ∃ a b, parseLine line = ⟨trim a, trim b⟩ := by
  simp only [parseLine]
  obtain ⟨p0, t0, hst⟩ := splitBy_exists_cons isEq line
  rw [hst]
  cases t0 with
  | cons p1 ps => exact ⟨p0, joinWith '=' (p1 :: ps), rfl⟩
  | nil =>
    obtain ⟨a0, t1, hst2⟩ := splitBy_exists_cons isColonTab line
    rw [hst2]
    cases t1 with
    | cons a1 rest => exact ⟨a0, a1, rfl⟩
    | nil => exact ⟨line, [], rfl⟩

theorem parseDocxLine_exists_trim (line : Str) :
    ∃ a b, parseDocxLine line = ⟨trim a, trim b⟩ := by
  simp only [parseDocxLine]
  obtain ⟨p0, t0, hst⟩ := splitBy_exists_cons isEq line
  rw [hst]
  cases t0 with
  | cons p1 ps => exact ⟨p0, joinWith '=' (p1 :: ps), rfl⟩
  | nil => exact ⟨line, [], rfl⟩

theorem parseLine_trimmed (line : Str) :
    trim (parseLine line).name = (parseLine line).name ∧
      trim (parseLine line).table = (parseLine line).table := by
  obtain ⟨a, b, hab⟩ := parseLine_exists_trim line
  rw [hab]
  exact ⟨trim_idem a, trim_idem b⟩

theorem parseLine_field_mem (line : Str) :
    (∀ c ∈ (parseLine line).name, c ∈ line) ∧
      (∀ c ∈ (parseLine line).table, c ∈ line) := by
  by_cases he : ('=' : Char) ∈ line
  · rw [parseLine_of_mem_eq he]
    constructor
    · intro c hc
      exact (List.takeWhile_sublist _).subset (mem_of_mem_trim hc)
    · intro c hc
      have h1 : c ∈ afterFirst isEq line := mem_of_mem_trim hc
      have h2 : c ∈ line.dropWhile (fun c => !isEq c) :=
        (List.tail_sublist _).subset h1
      exact (List.dropWhile_sublist _).subset h2
  · by_cases hct : ∃ c ∈ line, isColonTab c = true
    · rw [parseLine_of_colonTab he hct]
      constructor
      · intro c hc
        exact (List.takeWhile_sublist _).subset (mem_of_mem_trim hc)
      · intro c hc
        have h1 : c ∈ beforeFirst isColonTab (afterFirst isColonTab line) :=
          mem_of_mem_trim hc
        have h2 : c ∈ afterFirst isColonTab line :=
          (List.takeWhile_sublist _).subset h1
        have h3 : c ∈ line.dropWhile (fun c => !isColonTab c) :=
          (List.tail_sublist _).subset h2
        exact (List.dropWhile_sublist _).subset h3
    · push_neg at hct
      have hall : ∀ c ∈ line, isEq c = false ∧ isColonTab c = false := by
        intro c hc
        exact ⟨not_mem_eq_forall he c hc, Bool.eq_false_iff.mpr (hct c hc)⟩
      rw [parseLine_fallback hall]
      constructor
      · intro c hc
        exact mem_of_mem_trim hc
      · intro c hc
        simp at hc

/-! Case analysis of the tabular per-row parser. -/

theorem parseRow_exists_trim (row : List Str) :
    ∃ a b, parseRow row = ⟨trim a, trim b⟩ := by
  simp only [parseRow]
  split
  · exact ⟨_, _, rfl⟩
  · split
    · exact ⟨_, _, rfl⟩
    · exact ⟨cellAt row 0, cellAt row 1, rfl⟩

theorem parseRow_trimmed (row : List Str) :
    trim (parseRow row).name = (parseRow row).name ∧
      trim (parseRow row).table = (parseRow row).table := by
  obtain ⟨a, b, hab⟩ := parseRow_exists_trim row
  rw [hab]
  exact ⟨trim_idem a, trim_idem b⟩

theorem parseRow_resplit_eq {row : List Str}
    (ht : trim (cellAt row 1) = []) (he : ('=' : Char) ∈ cellAt row 0) :
    parseRow row =
      ⟨trim (beforeFirst isEq (trim (cellAt row 0))),
        trim (beforeFirst isEq (afterFirst isEq (trim (cellAt row 0))))⟩ := by
  have hn : ('=' : Char) ∈ trim (cellAt row 0) :=
    mem_trim_of_not_ws (by decide) he
  have hcond : ((trim (cellAt row 1)).isEmpty &&
      (trim (cellAt row 0)).contains '=') = true := by
    rw [ht]
    simp only [List.isEmpty_nil, Bool.true_and]
    exact List.elem_iff.mpr hn
  have hsplit := splitBy_of_exists isEq (trim (cellAt row 0))
    ⟨'=', hn, by simp [isEq]⟩
  obtain ⟨h0, t0, hst⟩ :=
    splitBy_exists_cons isEq (afterFirst isEq (trim (cellAt row 0)))
  have hhead : h0 = beforeFirst isEq (afterFirst isEq (trim (cellAt row 0))) := by
    have hq := splitBy_head? isEq (afterFirst isEq (trim (cellAt row 0)))
    rw [hst] at hq
    simpa using hq
  simp only [parseRow]
  rw [if_pos hcond, hsplit, hst]
  simp only [List.getD_cons_zero, List.getD_cons_succ]
  rw [hhead]

theorem parseRow_resplit_colon {row : List Str}
    (ht : trim (cellAt row 1) = []) (hne : ('=' : Char) ∉ cellAt row 0)
    (hc : (':' : Char) ∈ cellAt row 0) :
    parseRow row =
      ⟨trim (beforeFirst isColon (trim (cellAt row 0))),
        trim (beforeFirst isColon (afterFirst isColon (trim (cellAt row 0))))⟩ := by
  have hn : (':' : Char) ∈ trim (cellAt row 0) :=
    mem_trim_of_not_ws (by decide) hc
  have hne' : ('=' : Char) ∉ trim (cellAt row 0) := fun hm =>
    hne (mem_of_mem_trim hm)
  have hcond1 : ((trim (cellAt row 1)).isEmpty &&
      (trim (cellAt row 0)).contains '=') = false := by
    have : (trim (cellAt row 0)).contains '=' = false := by
      rw [← Bool.not_eq_true]
      intro hcon
      exact hne' (List.elem_iff.mp hcon)
    rw [this, Bool.and_false]
  have hcond2 : ((trim (cellAt row 1)).isEmpty &&
      (trim (cellAt row 0)).contains ':') = true := by
    rw [ht]
    simp only [List.isEmpty_nil, Bool.true_and]
    exact List.elem_iff.mpr hn
  have hsplit := splitBy_of_exists isColon (trim (cellAt row 0))
    ⟨':', hn, by simp [isColon]⟩
  obtain ⟨h0, t0, hst⟩ :=
    splitBy_exists_cons isColon (afterFirst isColon (trim (cellAt row 0)))
  have hhead : h0 = beforeFirst isColon (afterFirst isColon (trim (cellAt row 0))) := by
    have hq := splitBy_head? isColon (afterFirst isColon (trim (cellAt row 0)))
    rw [hst] at hq
    simpa using hq
  simp only [parseRow]
  rw [if_neg (by rw [hcond1]; simp), if_pos hcond2, hsplit, hst]
  simp only [List.getD_cons_zero, List.getD_cons_succ]
  rw [hhead]

theorem keepRecord_iff (r : Record) :
    keepRecord r = true ↔ normName r.name ≠ listeToken ∧ normName r.name ≠ [] := by
  simp [keepRecord]

/-! The claims. -/

/-- C1: for every input line that is not blank and contains at least one
'=', the produced record's name is the substring before the first '='
trimmed, and its table is the entire remainder after the first '=' — any
subsequent '=' characters kept literally — trimmed; this holds for the
per-line rule of parseNamesFromText and of parseDocxNames alike. -/
theorem equalsRule_firstSplit (line : Str) (hnb : trim line ≠ [])
    (he : ('=' : Char) ∈ line) :
    parseLine line =
        ⟨trim (beforeFirst isEq line), trim (afterFirst isEq line)⟩ ∧
      parseDocxLine line =
        ⟨trim (beforeFirst isEq line), trim (afterFirst isEq line)⟩ :=
  ⟨parseLine_of_mem_eq he, parseDocxLine_of_mem_eq he⟩

theorem equalsRule_firstSplit_witness :
    (trim ("A = B=C").toList ≠ [] ∧ ('=' : Char) ∈ ("A = B=C").toList) ∧
      parseLine ("A = B=C").toList =
          ⟨trim (beforeFirst isEq ("A = B=C").toList),
            trim (afterFirst isEq ("A = B=C").toList)⟩ ∧
        parseDocxLine ("A = B=C").toList =
          ⟨trim (beforeFirst isEq ("A = B=C").toList),
            trim (afterFirst isEq ("A = B=C").toList)⟩ :=
  ⟨⟨by decide, by decide⟩,
    equalsRule_firstSplit ("A = B=C").toList (by decide) (by decide)⟩

/-- C2: for every input line with no '=' but at least one ':' or tab, the
record's name is the text before the first such delimiter trimmed and its
table is the text strictly between that delimiter and the next ':' or tab
or the end of the line, trimmed; text after a second delimiter is dropped. -/
theorem colonTabRule_firstTwoSegments (line : Str)
    (hne : ('=' : Char) ∉ line)
    (hct : ∃ c ∈ line, c = ':' ∨ c = '\t') :
    parseLine line =
      ⟨trim (beforeFirst isColonTab line),
        trim (beforeFirst isColonTab (afterFirst isColonTab line))⟩ := by
  refine parseLine_of_colonTab hne ?_
  obtain ⟨c, hcmem, hcor⟩ := hct
  refine ⟨c, hcmem, ?_⟩
  rcases hcor with h | h <;> simp [isColonTab, h]

theorem colonTabRule_firstTwoSegments_witness :
    (('=' : Char) ∉ ("Bob : 1 : x").toList ∧
        ∃ c ∈ ("Bob : 1 : x").toList, c = ':' ∨ c = '\t') ∧
      parseLine ("Bob : 1 : x").toList =
        ⟨trim (beforeFirst isColonTab ("Bob : 1 : x").toList),
          trim (beforeFirst isColonTab
            (afterFirst isColonTab ("Bob : 1 : x").toList))⟩ :=
  ⟨⟨by decide, ⟨':', by decide, Or.inl rfl⟩⟩,
    colonTabRule_firstTwoSegments ("Bob : 1 : x").toList (by decide)
      ⟨':', by decide, Or.inl rfl⟩⟩

/-- C3 counterexample: with the single-cell row "A=B=C" the tabular
re-split keeps only the segment between the first and second '=' as the
table — the code takes parts[1], not the rejoined remainder — so the
claimed record {A, B=C} is not produced; the record is {A, B}. -/
theorem tabularEqualsRule_counterexample :
    parseRow [("A=B=C").toList] ≠
        (⟨("A").toList, ("B=C").toList⟩ : Record) ∧
      parseRow [("A=B=C").toList] = (⟨("A").toList, ("B").toList⟩ : Record) := by
  exact ⟨by decide, by decide⟩

/-- C3 amended: for a row whose second cell trims to empty, if the first
cell contains '=', the record is the first cell's text before the first '='
(trimmed) and the segment strictly between the first '=' and the next '='
or the end (trimmed); likewise with ':' when the first cell has no '='. -/
theorem tabularResplit_secondSegment (row : List Str)
    (ht : trim (cellAt row 1) = []) :
    (('=' : Char) ∈ cellAt row 0 →
        parseRow row =
          ⟨trim (beforeFirst isEq (trim (cellAt row 0))),
            trim (beforeFirst isEq (afterFirst isEq (trim (cellAt row 0))))⟩) ∧
      (('=' : Char) ∉ cellAt row 0 → (':' : Char) ∈ cellAt row 0 →
        parseRow row =
          ⟨trim (beforeFirst isColon (trim (cellAt row 0))),
            trim (beforeFirst isColon (afterFirst isColon (trim (cellAt row 0))))⟩) :=
  ⟨fun he => parseRow_resplit_eq ht he,
    fun hne hc => parseRow_resplit_colon ht hne hc⟩

theorem tabularResplit_secondSegment_witness :
    (trim (cellAt [("A=B=C").toList] 1) = [] ∧
        ('=' : Char) ∈ cellAt [("A=B=C").toList] 0) ∧
      parseRow [("A=B=C").toList] =
        ⟨trim (beforeFirst isEq (trim (cellAt [("A=B=C").toList] 0))),
          trim (beforeFirst isEq
            (afterFirst isEq (trim (cellAt [("A=B=C").toList] 0))))⟩ :=
  ⟨⟨by decide, by decide⟩,
    (tabularResplit_secondSegment [("A=B=C").toList] (by decide)).1 (by decide)⟩

/-- C4: a record of the pre-filter sequence appears in the output of
parseNamesFromText exactly when its name, lower-cased and with all
whitespace removed, is neither the literal token "liste" nor empty; a name
containing "liste" only inside a longer word is kept. -/
theorem listeFilter_membership (text : Str) (r : Record)
    (hr : r ∈ rawRecords text) :
    r ∈ parseNamesFromText text ↔
      normName r.name ≠ listeToken ∧ normName r.name ≠ [] := by
  have hdef : parseNamesFromText text = (rawRecords text).filter keepRecord := rfl
  rw [hdef, List.mem_filter]
  constructor
  · intro h
    exact (keepRecord_iff r).mp h.2
  · intro hk
    exact ⟨hr, (keepRecord_iff r).mpr hk⟩

theorem listeFilter_membership_witness :
    ((⟨("Listes").toList, ("1").toList⟩ : Record) ∈
        rawRecords ("Listes = 1").toList) ∧
      ((⟨("Listes").toList, ("1").toList⟩ : Record) ∈
          parseNamesFromText ("Listes = 1").toList ↔
        normName ("Listes").toList ≠ listeToken ∧
          normName ("Listes").toList ≠ []) :=
  ⟨by decide,
    listeFilter_membership ("Listes = 1").toList
      ⟨("Listes").toList, ("1").toList⟩ (by decide)⟩

/-- C5: a line containing none of '=', ':' and tab parses to the trimmed
line with an empty table, and a blank (empty or whitespace-only) line
contributes no record: removing it from the line sequence leaves the
parser's output unchanged. -/
theorem fallbackRule_and_blankLines :
    (∀ line : Str, (∀ c ∈ line, c ≠ '=' ∧ c ≠ ':' ∧ c ≠ '\t') →
        parseLine line = ⟨trim line, []⟩) ∧
      (∀ (pre post : List Str) (blank : Str), trim blank = [] →
        processLines (pre ++ blank :: post) = processLines (pre ++ post)) := by
  constructor
  · intro line h
    refine parseLine_fallback ?_
    intro c hc
    obtain ⟨h1, h2, h3⟩ := h c hc
    exact ⟨by simp [isEq, h1], by simp [isColonTab, h2, h3]⟩
  · intro pre post blank hb
    simp only [processLines, List.filter_append, List.filter_cons, hb]
    simp

theorem fallbackRule_and_blankLines_witness :
    ((∀ c ∈ ("Just a Name").toList, c ≠ '=' ∧ c ≠ ':' ∧ c ≠ '\t') ∧
        trim ("   ").toList = []) ∧
      parseLine ("Just a Name").toList = ⟨trim ("Just a Name").toList, []⟩ ∧
        processLines ([("A").toList] ++ ("   ").toList :: [("B").toList]) =
          processLines ([("A").toList] ++ [("B").toList]) :=
  ⟨⟨by decide, by decide⟩,
    ⟨fallbackRule_and_blankLines.1 ("Just a Name").toList (by decide),
      fallbackRule_and_blankLines.2 [("A").toList] [("B").toList]
        ("   ").toList (by decide)⟩⟩

/-- C6: the outputs of parseNamesFromText and of the tabular extractor are
sublists of the per-line (per-row) parses in source order — filtering only
removes items, never reorders — and a kept non-blank line contributes its
record at the front of the remaining output, so identical lines yield one
record each, with no deduplication. -/
theorem orderPreservation_noDedup :
    (∀ text : Str,
        List.Sublist (parseNamesFromText text) ((splitLines text).map parseLine)) ∧
      (∀ rows : List (List Str),
        List.Sublist (extractNamesTabular rows) (rows.map parseRow)) ∧
      (∀ (l : Str) (ls : List Str), trim l ≠ [] →
        keepRecord (parseLine l) = true →
        processLines (l :: ls) = parseLine l :: processLines ls) := by
  refine ⟨?_, ?_, ?_⟩
  · intro text
    have h1 : List.Sublist ((splitLines text).filter (fun l => !(trim l).isEmpty))
        (splitLines text) := List.filter_sublist _
    have h2 := h1.map parseLine
    have h3 : List.Sublist (parseNamesFromText text)
        (((splitLines text).filter (fun l => !(trim l).isEmpty)).map parseLine) :=
      List.filter_sublist _
    exact h3.trans h2
  · intro rows
    exact List.filter_sublist _
  · intro l ls hl hk
    have hq : (!(trim l).isEmpty) = true := by
      cases hcase : trim l with
      | nil => exact absurd hcase hl
      | cons a t => simp [hcase]
    simp only [processLines]
    rw [@List.filter_cons_of_pos Str (fun l => !(trim l).isEmpty) l ls hq,
      List.map_cons, List.filter_cons_of_pos hk]

theorem orderPreservation_noDedup_witness :
    (trim ("Ann").toList ≠ [] ∧ keepRecord (parseLine ("Ann").toList) = true) ∧
      processLines (("Ann").toList :: [("Ann").toList]) =
        parseLine ("Ann").toList :: processLines [("Ann").toList] :=
  ⟨⟨by decide, by decide⟩,
    orderPreservation_noDedup.2.2 ("Ann").toList [("Ann").toList]
      (by decide) (by decide)⟩

/-- C7: every record in the output of parseNamesFromText and of the
tabular extractor has a name that is non-empty even after trimming;
only the table may be empty. -/
theorem outputNames_nonempty :
    (∀ (text : Str) (r : Record), r ∈ parseNamesFromText text →
        trim r.name ≠ []) ∧
      (∀ (rows : List (List Str)) (r : Record), r ∈ extractNamesTabular rows →
        trim r.name ≠ []) := by
  constructor
  · intro text r hr
    have hdef : parseNamesFromText text = (rawRecords text).filter keepRecord := rfl
    rw [hdef, List.mem_filter] at hr
    obtain ⟨hmem, hkeep⟩ := hr
    simp only [rawRecords] at hmem
    obtain ⟨l, hl, hpl⟩ := List.mem_map.mp hmem
    have htr : trim r.name = r.name := by
      rw [← hpl]
      exact (parseLine_trimmed l).1
    have hk := ((keepRecord_iff r).mp hkeep).2
    intro hnil
    have hn : r.name = [] := htr.symm.trans hnil
    refine hk ?_
    rw [hn]
    rfl
  · intro rows r hr
    simp only [extractNamesTabular] at hr
    rw [List.mem_filter] at hr
    obtain ⟨hmem, hne⟩ := hr
    obtain ⟨row, hrow, hpr⟩ := List.mem_map.mp hmem
    have htr : trim r.name = r.name := by
      rw [← hpr]
      exact (parseRow_trimmed row).1
    intro hnil
    have hn : r.name = [] := htr.symm.trans hnil
    rw [hn] at hne
    simp at hne

theorem outputNames_nonempty_witness :
    ((⟨("Ann").toList, ("1").toList⟩ : Record) ∈
        parseNamesFromText ("Ann = 1").toList) ∧
      trim (Record.name ⟨("Ann").toList, ("1").toList⟩) ≠ [] :=
  ⟨by decide,
    outputNames_nonempty.1 ("Ann = 1").toList
      ⟨("Ann").toList, ("1").toList⟩ (by decide)⟩

/-- C8: the parser is a total function — modelled here as a Lean function
it cannot raise — the empty input yields the empty record sequence, and
each input line yields at most one record, so every line either resolves
to a record or is filtered out. -/
theorem parser_total_emptyInput :
    parseNamesFromText [] = [] ∧
      ∀ text : Str,
        (parseNamesFromText text).length ≤ (splitLines text).length := by
  constructor
  · rfl
  · intro text
    have hdef : parseNamesFromText text = (rawRecords text).filter keepRecord := rfl
    have h1 : (parseNamesFromText text).length ≤ (rawRecords text).length := by
      rw [hdef]
      exact List.length_filter_le _ _
    have h2 : (rawRecords text).length ≤ (splitLines text).length := by
      simp only [rawRecords, List.length_map]
      exact List.length_filter_le _ _
    exact le_trans h1 h2

/-- C9: a record produced by parseNamesFromText whose fields contain none
of '=', ':' and tab, re-serialised as "name = table" and re-parsed, yields
exactly that one record again. -/
theorem roundTrip_idempotence (text : Str) (r : Record)
    (hr : r ∈ parseNamesFromText text)
    (hname : ∀ c ∈ r.name, c ≠ '=' ∧ c ≠ ':' ∧ c ≠ '\t')
    (htable : ∀ c ∈ r.table, c ≠ '=' ∧ c ≠ ':' ∧ c ≠ '\t') :
    parseNamesFromText (r.name ++ (" = ").toList ++ r.table) = [r] := by
  have hdef : parseNamesFromText text = (rawRecords text).filter keepRecord := rfl
  rw [hdef, List.mem_filter] at hr
  obtain ⟨hmem, hkeep⟩ := hr
  simp only [rawRecords] at hmem
  obtain ⟨l, hl, hpl⟩ := List.mem_map.mp hmem
  have hlmem : l ∈ splitLines text := List.mem_of_mem_filter hl
  have hnl : ('\n' : Char) ∉ l := not_newline_of_mem_splitLines text l hlmem
  have hfm := parseLine_field_mem l
  have hnl_name : ('\n' : Char) ∉ r.name := fun h =>
    hnl (hfm.1 '\n' (by rw [hpl]; exact h))
  have hnl_table : ('\n' : Char) ∉ r.table := fun h =>
    hnl (hfm.2 '\n' (by rw [hpl]; exact h))
  have htrn : trim r.name = r.name := by
    rw [← hpl]
    exact (parseLine_trimmed l).1
  have htrt : trim r.table = r.table := by
    rw [← hpl]
    exact (parseLine_trimmed l).2
  have hline2 : r.name ++ (" = ").toList ++ r.table =
      r.name ++ (' ' :: '=' :: ' ' :: r.table) := by
    rw [List.append_assoc]
    rfl
  rw [hline2]
  have hmemeq : ('=' : Char) ∈ r.name ++ (' ' :: '=' :: ' ' :: r.table) := by
    simp
  have hnl_line : ('\n' : Char) ∉ r.name ++ (' ' :: '=' :: ' ' :: r.table) := by
    intro h
    rcases List.mem_append.mp h with h | h
    · exact hnl_name h
    · rcases List.mem_cons.mp h with h | h
      · exact absurd h (by decide)
      · rcases List.mem_cons.mp h with h | h
        · exact absurd h (by decide)
        · rcases List.mem_cons.mp h with h | h
          · exact absurd h (by decide)
          · exact hnl_table h
  have hsl : splitLines (r.name ++ (' ' :: '=' :: ' ' :: r.table)) =
      [r.name ++ (' ' :: '=' :: ' ' :: r.table)] :=
    splitLines_no_newline _ hnl_line
  have htl : trim (r.name ++ (' ' :: '=' :: ' ' :: r.table)) ≠ [] :=
    List.ne_nil_of_mem (mem_trim_of_not_ws (by decide) hmemeq)
  have hppos : ∀ a ∈ r.name, ((fun c => !isEq c) a) := by
    intro a ha
    simp [isEq, (hname a ha).1]
  have hbf : beforeFirst isEq (r.name ++ (' ' :: '=' :: ' ' :: r.table)) =
      r.name ++ [' '] := by
    simp only [beforeFirst]
    rw [List.takeWhile_append_of_pos hppos]
    rfl
  have haf : afterFirst isEq (r.name ++ (' ' :: '=' :: ' ' :: r.table)) =
      ' ' :: r.table := by
    simp only [afterFirst]
    rw [List.dropWhile_append_of_pos hppos]
    rfl
  have hplline : parseLine (r.name ++ (' ' :: '=' :: ' ' :: r.table)) = r := by
    rw [parseLine_of_mem_eq hmemeq, hbf, haf,
      trim_ws_append (by decide) r.name, trim_ws_cons (by decide) r.table,
      htrn, htrt]
  show processLines (splitLines (r.name ++ (' ' :: '=' :: ' ' :: r.table))) = [r]
  rw [hsl]
  have hq : (!(trim (r.name ++ (' ' :: '=' :: ' ' :: r.table))).isEmpty) = true := by
    cases hcase : trim (r.name ++ (' ' :: '=' :: ' ' :: r.table)) with
    | nil => exact absurd hcase htl
    | cons a t => simp [hcase]
  simp only [processLines]
  rw [@List.filter_cons_of_pos Str (fun l => !(trim l).isEmpty)
      (r.name ++ (' ' :: '=' :: ' ' :: r.table)) [] hq,
    List.map_cons, List.filter_nil, List.map_nil, hplline,
    List.filter_cons_of_pos hkeep, List.filter_nil]

theorem roundTrip_idempotence_witness :
    parseNamesFromText
        (Record.name ⟨("Ann").toList, ("7").toList⟩ ++ (" = ").toList ++
          Record.table ⟨("Ann").toList, ("7").toList⟩) =
      [⟨("Ann").toList, ("7").toList⟩] :=
  roundTrip_idempotence ("Ann = 7").toList ⟨("Ann").toList, ("7").toList⟩
    (by decide) (by decide) (by decide)

/-- C10 counterexample: the tab-delimited, '='-free line "Alice\t" is
parsed identically by the docx per-line rule and the main per-line rule —
both give name "Alice" and empty table, because trimming removes the
trailing tab — so the claim that the two parsers differ on every colon- or
tab-delimited line fails. -/
theorem docxTabLine_counterexample :
    (('\t' : Char) ∈ ("Alice\t").toList ∧ ('=' : Char) ∉ ("Alice\t").toList) ∧
      parseDocxLine ("Alice\t").toList = parseLine ("Alice\t").toList := by
  exact ⟨⟨by decide, by decide⟩, by decide⟩

/-- C10 amended: the docx per-line rule maps every '='-free line to the
whole trimmed line with an empty table, and on every '='-free line that
contains a ':' its result differs from the main per-line rule; on
tab-delimited lines the two rules may coincide. -/
theorem docxEqualsOnly_colonDiffers :
    (∀ line : Str, ('=' : Char) ∉ line →
        parseDocxLine line = ⟨trim line, []⟩) ∧
      (∀ line : Str, ('=' : Char) ∉ line → (':' : Char) ∈ line →
        parseDocxLine line ≠ parseLine line) := by
  constructor
  · intro line hne
    exact parseDocxLine_of_not_mem_eq hne
  · intro line hne hc heq
    have hd : parseDocxLine line = ⟨trim line, []⟩ :=
      parseDocxLine_of_not_mem_eq hne
    have hct : ∃ c ∈ line, isColonTab c = true := ⟨':', hc, by simp [isColonTab]⟩
    have hp := parseLine_of_colonTab hne hct
    rw [hd, hp] at heq
    have hnames : trim line = trim (beforeFirst isColonTab line) :=
      congrArg Record.name heq
    have h1 : (':' : Char) ∈ trim line := mem_trim_of_not_ws (by decide) hc
    rw [hnames] at h1
    have h2 : (':' : Char) ∈ beforeFirst isColonTab line := mem_of_mem_trim h1
    have h3 := List.mem_takeWhile_imp h2
    simp [isColonTab] at h3

theorem docxEqualsOnly_colonDiffers_witness :
    (('=' : Char) ∉ ("Bob : 1").toList ∧ (':' : Char) ∈ ("Bob : 1").toList) ∧
      parseDocxLine ("Bob : 1").toList ≠ parseLine ("Bob : 1").toList :=
  ⟨⟨by decide, by decide⟩,
    docxEqualsOnly_colonDiffers.2 ("Bob : 1").toList (by decide) (by decide)⟩

end Namster
